import Mathlib

/-!
# A model of `entropy_based_binning.py`

This file embeds the functions of `entropy_based_binning.py` as Lean
definitions and proves properties of them.

A numpy float array is modelled as a `List PyVal`, where a `PyVal` is either
`nan` (the missing marker) or a finite number, represented as a rational so
that the integrality check `np.mod(x, 1) == 0` is exact.

The only genuinely real-valued quantity in the code is the entropy
`h = -sum(pdf * log2(pdf))` computed by `_get_h`, and the code only ever
*compares* entropies of candidate binnings of one fixed sequence (all of
which share the same total count `T = sum(counts)`).  For positive counts,
`h = log2 T - log2 (prod c_i ^ c_i) / T`, which is strictly decreasing in the
natural number `prod c_i ^ c_i`.  The model therefore carries the exact
integer `entropyWeight counts = prod c_i ^ c_i` in place of the float `h`,
which keeps every definition computable; the theorem
`entropyWeight_lt_iff_shannonH_gt` below proves that comparing weights is
exactly comparing the real entropies (in the opposite direction), and
`shannonH_pos_iff_weight_lt` handles the comparison against the initial
`best_h = 0`.  The float NaN produced by `_get_h` on a zero count (see
`_get_h`'s doc string) is modelled as `Option.none`.
-/

/-- A numpy float cell: either NaN (the missing marker) or a finite number,
modelled as a rational so that the integrality check is exact. -/
inductive PyVal where
  | nan : PyVal
  | num : ℚ → PyVal
deriving DecidableEq, Repr

/-- `np.isnan`. -/
def PyVal.isnan : PyVal → Bool
  | .nan => true
  | .num _ => false

/-- `_isinteger(x) = (np.mod(x, 1) == 0)`; NaN mod 1 is NaN, which compares
unequal to 0, and a finite rational has zero fractional part iff its
denominator is 1. -/
def _isinteger : PyVal → Bool
  | .nan => false
  | .num q => q.den == 1

/-- The integer value of a cell, `none` for NaN.  `bin_sequence` only
consults this after its integrality assert has passed, so there `q.den = 1`
and `q.num` is exactly the value. -/
def PyVal.toInt? : PyVal → Option ℤ
  | .nan => none
  | .num q => some q.num

/-- `itertools.combinations(l, r)`: all length-`r` sublists of `l`, in the
lexicographic-by-position order that itertools emits. -/
def combinations {α : Type} : ℕ → List α → List (List α)
  | 0, _ => [[]]
  | _ + 1, [] => []
  | r + 1, x :: xs => (combinations r xs).map (fun c => x :: c) ++ combinations (r + 1) xs

/-- `range(a, a + len)` as a list of integers. -/
def intRange (a : ℤ) (len : ℕ) : List ℤ :=
  List.map (fun i : ℕ => a + (i : ℤ)) (List.range len)

/-- `[base[lo:hi] for lo, hi in zip((0,) + ixs, ixs + (nbase,))]`
(the body of `_generate_bins`'s `yield`). -/
def pySlices (base : List ℤ) (ixs : List ℕ) : List (List ℤ) :=
  ((0 :: ixs).zip (ixs ++ [base.length])).map (fun p => (base.drop p.1).take (p.2 - p.1))

/-- `_generate_bins(seq, nbins)`: the cut positions `ixs` range over
`itertools.combinations(range(1, len(seq)), nbins - 1)` and each combination
is materialised into the list of slices `pySlices seq ixs`.  (The generator
is consumed into a list; `bin_sequence` iterates it exactly once.) -/
def _generate_bins (seq : List ℤ) (nbins : ℕ) : List (List (List ℤ)) :=
  (combinations (nbins - 1) (List.range' 1 (seq.length - 1))).map (pySlices seq)

/-- Recursive form of `pySlices`: the slice from `lo` to the first cut, then
the slices between consecutive cuts, then the tail from the last cut.
`pySlices_eq_sliceRec` proves it equal to `pySlices base ixs` at `lo = 0`. -/
def sliceRec (base : List ℤ) : ℕ → List ℕ → List (List ℤ)
  | lo, [] => [base.drop lo]
  | lo, hi :: rest => (base.drop lo).take (hi - lo) :: sliceRec base hi rest

/-- One masked assignment `b[a == some_number] = ii`, elementwise over the
paired arrays `a`, `b`.  NaN compares unequal to every number. -/
def _maskAssign (a b : List PyVal) (v : ℤ) (ii : ℕ) : List PyVal :=
  (a.zip b).map (fun p => if p.1 = PyVal.num (v : ℚ) then PyVal.num (ii : ℚ) else p.2)

/-- `_apply_binning(a, binning)`: start from `np.full_like(a, nan)` and, for
each bin index `ii` and each value `some_number` of that bin, write `ii` over
the positions holding that value.  The final `astype(a.dtype)` produces a
fresh array with the same entries and is modelled as the identity on values
(the model does not distinguish dtypes). -/
def _apply_binning (a : List PyVal) (binning : List (List ℤ)) : List PyVal :=
  binning.enum.foldl
    (fun b p => p.2.foldl (fun b v => _maskAssign a b v p.1) b)
    (a.map (fun _ => PyVal.nan))

/-- The per-cell effect of `_apply_binning`: starting from NaN, each group
`(ii, bin)` in order overwrites the cell with `ii` when the cell's value
occurs in `bin`.  `apply_binning_eq_map` proves
`_apply_binning a binning = a.map (applyCell binning)`. -/
def applyCell (binning : List (List ℤ)) (x : PyVal) : PyVal :=
  binning.enum.foldl
    (fun y p => if p.2.any (fun v => x = PyVal.num (v : ℚ)) then PyVal.num (p.1 : ℚ) else y)
    PyVal.nan

/-- `np.bincount`: occurrence counts of `0, 1, ..., max labels` (length 0 on
an empty input; otherwise length `max + 1`, so bins beyond the largest
occupied label are dropped while interior empty labels give a 0 entry). -/
def bincount (labels : List ℕ) : List ℕ :=
  if labels.isEmpty then []
  else (List.range (labels.foldl max 0 + 1)).map (fun i => labels.count i)

/-- `b[~np.isnan(b)].astype(np.int)`: the non-NaN entries of `b` as natural
number labels.  In `_get_h`'s callers `b` holds only NaN and nonnegative
integer group labels, for which `q.num.toNat` is exactly the label. -/
def labelsOf (b : List PyVal) : List ℕ :=
  b.filterMap (fun x => match x with
    | .nan => none
    | .num q => some q.num.toNat)

/-- `prod c_i ^ c_i`: the strictly-decreasing integer encoding of the
entropy of a count vector with total `T`: for positive counts,
`h = log2 T - log2 (entropyWeight counts) / T`
(theorem `shannonH_eq_of_pos` below). -/
def entropyWeight (counts : List ℕ) : ℕ := (counts.map (fun c => c ^ c)).prod

/-- `_get_h(b)`.  The code computes `pdf = counts / sum(counts)` and
`h = -np.sum(np.ma.filled(pdf * np.log2(pdf), fill_value=0))`.  Since
`pdf * np.log2(pdf)` is a plain ndarray (not a masked array), `np.ma.filled`
returns it unchanged, so a zero count produces `0 * log2 0 = 0 * -inf = NaN`
and hence `h = NaN`; this is modelled as `none`.  Otherwise `h` is the
entropy of `counts`, modelled by its exact encoding `entropyWeight counts`
(see the file doc string).  `counts` is nonempty whenever `b` has a non-NaN
entry, which is the case in every call reachable from `bin_sequence`. -/
def _get_h (b : List PyVal) : Option ℕ :=
  let counts := bincount (labelsOf b)
  if counts.contains 0 then none else some (entropyWeight counts)

/-- `_evaluate_binning(a, binning) = _get_h(_apply_binning(a, binning))`. -/
def _evaluate_binning (a : List PyVal) (binning : List (List ℤ)) : Option ℕ :=
  _get_h (_apply_binning a binning)

/-- The ways a `bin_sequence` call fails, named after the raising site:

* `invalidInput`: the `assert` on line 80 fails
  (`"Input has to be integer or integer-like!"`);
* `emptyInput`: `np.int(np.nanmin(a))` fails because `a` has no non-missing
  element (`ValueError`);
* `negativeBinCount`: `itertools.combinations` rejects `nbins - 1 < 0`
  (`ValueError`);
* `noBestBinning`: the loop never executed `best_binning = binning`, so the
  final `_apply_binning(a, best_binning)` hits an unbound local variable
  (`UnboundLocalError`). -/
inductive BinError where
  | invalidInput
  | emptyInput
  | negativeBinCount
  | noBestBinning
deriving DecidableEq, Repr

/-- `bin_sequence(a, nbins)`.  The accumulator `(bestW, bestBinning)` models
the floats `best_h`/`best_binning`: `best_h = 0.` initially corresponds to
`bestW = T ^ T` and a stored entropy `h` to its weight `w`, so the strict
float comparison `h > best_h` is exactly `w < bestW`
(`shannonH_pos_iff_weight_lt`, `entropyWeight_lt_iff_shannonH_gt`); the NaN
entropy (`none`) fails every `>` comparison and leaves the state unchanged. -/
def bin_sequence (a : List PyVal) (nbins : ℤ) : Except BinError (List PyVal) :=
  if a.all (fun x => _isinteger x || x.isnan) then
    match (a.filterMap PyVal.toInt?).min?, (a.filterMap PyVal.toInt?).max? with
    | some amin, some amax =>
      if nbins ≤ 0 then .error .negativeBinCount
      else
        let T := (a.filterMap PyVal.toInt?).length
        let best := (_generate_bins (intRange amin (amax + 1 - amin).toNat) nbins.toNat).foldl
          (fun st binning =>
            match _evaluate_binning a binning with
            | none => st
            | some w => if w < st.1 then (w, some binning) else st)
          ((T ^ T, none) : ℕ × Option (List (List ℤ)))
        match best.2 with
        | some binning => .ok (_apply_binning a binning)
        | none => .error .noBestBinning
    | _, _ => .error .emptyInput
  else .error .invalidInput

/-! ## The heap model

For the frame property (the input array is never mutated) the numpy arrays
are placed in an explicit heap: a list of arrays addressed by index.  Every
numpy operation of the source that allocates (`np.full_like`, `astype`)
appends a fresh cell, and the only mutating statement of the whole module,
`b[a == some_number] = ii` inside `_apply_binning`, writes through `set` to
the cell it allocated.  All other operations only read. -/

/-- The heap: numpy arrays addressed by position. -/
abbrev Heap : Type := List (List PyVal)

/-- `_apply_binning` on the heap: allocate `b = np.full_like(a, nan)`,
perform the masked writes on that fresh cell, then allocate the result of
`b.astype(a.dtype)`.  Returns the new heap and the address of the result. -/
def _apply_binning_st (heap : Heap) (aRef : ℕ) (binning : List (List ℤ)) :
    Heap × ℕ :=
  let heap1 : Heap := heap ++ [(heap.getD aRef []).map (fun _ => PyVal.nan)]
  let bRef := heap.length
  let heap2 : Heap := binning.enum.foldl
    (fun (h : Heap) p => p.2.foldl
      (fun (h : Heap) v =>
        h.set bRef (_maskAssign (h.getD aRef []) (h.getD bRef []) v p.1)) h)
    heap1
  (heap2 ++ [heap2.getD bRef []], heap2.length)

/-- `bin_sequence` on the heap: the validation, range computation and search
only read the input cell; on success the winning binning is applied through
`_apply_binning_st` and the address of the fresh result cell is returned. -/
def bin_sequence_st (heap : Heap) (aRef : ℕ) (nbins : ℤ) :
    Heap × Except BinError ℕ :=
  let a := heap.getD aRef []
  if a.all (fun x => _isinteger x || x.isnan) then
    match (a.filterMap PyVal.toInt?).min?, (a.filterMap PyVal.toInt?).max? with
    | some amin, some amax =>
      if nbins ≤ 0 then (heap, .error .negativeBinCount)
      else
        let T := (a.filterMap PyVal.toInt?).length
        let best := (_generate_bins (intRange amin (amax + 1 - amin).toNat) nbins.toNat).foldl
          (fun st binning =>
            match _evaluate_binning a binning with
            | none => st
            | some w => if w < st.1 then (w, some binning) else st)
          ((T ^ T, none) : ℕ × Option (List (List ℤ)))
        match best.2 with
        | some binning =>
          ((_apply_binning_st heap aRef binning).1, .ok (_apply_binning_st heap aRef binning).2)
        | none => (heap, .error .noBestBinning)
    | _, _ => (heap, .error .emptyInput)
  else (heap, .error .invalidInput)

/-! ## The real entropy

`shannonH` is the real number that the float `h` of `_get_h` approximates:
the base-2 Shannon entropy of the distribution `counts / sum counts`.  It is
the specification-side reading of the entropy and justifies the integer
encoding `entropyWeight` used by the executable model. -/

/-- The base-2 Shannon entropy `-sum(pdf * log2 pdf)` of the distribution
`pdf = counts / sum counts`. -/
noncomputable def shannonH (counts : List ℕ) : ℝ :=
  -(List.map (fun c : ℕ =>
      ((c : ℝ) / (counts.sum : ℝ)) * Real.logb 2 ((c : ℝ) / (counts.sum : ℝ))) counts).sum

/-! ## Facts about `combinations` -/

theorem combinations_length {α : Type} (r : ℕ) (l : List α) :
    (combinations r l).length = l.length.choose r := by
  induction l generalizing r with
  | nil => cases r <;> simp [combinations]
  | cons x xs ih =>
    cases r with
    | zero => simp [combinations]
    | succ r =>
      simp [combinations, ih, Nat.choose_succ_succ]

theorem sublist_of_mem_combinations {α : Type} {r : ℕ} {l c : List α}
    (h : c ∈ combinations r l) : c.Sublist l := by
  induction l generalizing r c with
  | nil =>
    cases r with
    | zero => simp [combinations] at h; simp [h]
    | succ r => simp [combinations] at h
  | cons x xs ih =>
    cases r with
    | zero => simp [combinations] at h; simp [h]
    | succ r =>
      simp only [combinations, List.mem_append, List.mem_map] at h
      rcases h with ⟨c', hc', rfl⟩ | h
      · exact (ih hc').cons₂ x
      · exact (ih h).cons x

theorem length_of_mem_combinations {α : Type} {r : ℕ} {l c : List α}
    (h : c ∈ combinations r l) : c.length = r := by
  induction l generalizing r c with
  | nil =>
    cases r with
    | zero => simp [combinations] at h; simp [h]
    | succ r => simp [combinations] at h
  | cons x xs ih =>
    cases r with
    | zero => simp [combinations] at h; simp [h]
    | succ r =>
      simp only [combinations, List.mem_append, List.mem_map] at h
      rcases h with ⟨c', hc', rfl⟩ | h
      · simp [ih hc']
      · exact ih h

theorem combinations_eq_nil {α : Type} {r : ℕ} {l : List α}
    (h : l.length < r) : combinations r l = [] := by
  induction l generalizing r with
  | nil =>
    cases r with
    | zero => omega
    | succ r => rfl
  | cons x xs ih =>
    cases r with
    | zero => omega
    | succ r =>
      simp only [combinations]
      rw [ih (by simp at h; omega), ih (by simp at h; omega)]
      simp

theorem combinations_pairwise_lex {r : ℕ} {l : List ℕ}
    (hl : l.Pairwise (· < ·)) :
    (combinations r l).Pairwise (List.Lex (· < ·)) := by
  induction l generalizing r with
  | nil =>
    cases r with
    | zero => simp [combinations]
    | succ r => simp [combinations]
  | cons x xs ih =>
    cases r with
    | zero => simp [combinations]
    | succ r =>
      simp only [combinations]
      rw [List.pairwise_append]
      refine ⟨?_, ih (List.Pairwise.of_cons hl), ?_⟩
      · exact List.Pairwise.map _ (fun c1 c2 h => List.Lex.cons h) (ih (List.Pairwise.of_cons hl))
      · intro c1 hc1 c2 hc2
        simp only [List.mem_map] at hc1
        rcases hc1 with ⟨c1', _, rfl⟩
        have hlen : c2.length = r + 1 := length_of_mem_combinations hc2
        cases c2 with
        | nil => simp at hlen
        | cons y c2' =>
          have hy : y ∈ xs := (sublist_of_mem_combinations hc2).subset (by simp)
          have hxy : x < y := (List.pairwise_cons.mp hl).1 y hy
          exact List.Lex.rel hxy

/-! ## Facts about `intRange` -/

theorem intRange_length (a : ℤ) (L : ℕ) : (intRange a L).length = L := by
  simp [intRange]

theorem mem_intRange {v a : ℤ} {L : ℕ} :
    v ∈ intRange a L ↔ a ≤ v ∧ v < a + L := by
  simp only [intRange, List.mem_map, List.mem_range]
  constructor
  · rintro ⟨i, hi, rfl⟩
    omega
  · rintro ⟨h1, h2⟩
    exact ⟨(v - a).toNat, by omega, by omega⟩

theorem intRange_drop (a : ℤ) (L k : ℕ) :
    (intRange a L).drop k = intRange (a + k) (L - k) := by
  apply List.ext_getElem
  · simp [intRange]
  · intro i h1 h2
    simp only [intRange, List.getElem_drop, List.getElem_map, List.getElem_range]
    push_cast
    ring

theorem intRange_getElem (a : ℤ) (L i : ℕ) (h : i < (intRange a L).length) :
    (intRange a L)[i] = a + i := by
  simp only [intRange]
  rw [List.getElem_map, List.getElem_range]

theorem intRange_take (a : ℤ) (L k : ℕ) :
    (intRange a L).take k = intRange a (min k L) := by
  apply List.ext_getElem
  · rw [List.length_take, intRange_length, intRange_length]
  · intro i h1 h2
    rw [List.getElem_take, intRange_getElem, intRange_getElem]

theorem intRange_pairwise (a : ℤ) (L : ℕ) :
    (intRange a L).Pairwise (· < ·) := by
  exact List.Pairwise.map (fun i : ℕ => a + (i : ℤ))
    (fun i j h => add_lt_add_left (Nat.cast_lt.mpr h) a) (List.pairwise_lt_range L)

/-! ## Facts about `pySlices` and `_generate_bins` -/

theorem pySlices_eq_sliceRec_aux (base : List ℤ) (ixs : List ℕ) (lo : ℕ) :
    ((lo :: ixs).zip (ixs ++ [base.length])).map
      (fun p => (base.drop p.1).take (p.2 - p.1)) = sliceRec base lo ixs := by
  induction ixs generalizing lo with
  | nil =>
    simp only [List.nil_append, List.zip_cons_cons, List.zip_nil_right, List.map_cons,
      List.map_nil, sliceRec]
    rw [List.take_of_length_le (by rw [List.length_drop])]
  | cons hi rest ih =>
    simp only [List.cons_append, List.zip_cons_cons, List.map_cons, sliceRec]
    rw [ih hi]

theorem pySlices_eq_sliceRec (base : List ℤ) (ixs : List ℕ) :
    pySlices base ixs = sliceRec base 0 ixs :=
  pySlices_eq_sliceRec_aux base ixs 0

theorem sliceRec_length (base : List ℤ) (lo : ℕ) (ixs : List ℕ) :
    (sliceRec base lo ixs).length = ixs.length + 1 := by
  induction ixs generalizing lo with
  | nil => rfl
  | cons hi rest ih => simp [sliceRec, ih]

theorem sliceRec_flatten (base : List ℤ) (lo : ℕ) (ixs : List ℕ)
    (hchain : List.Chain (· ≤ ·) lo ixs) :
    (sliceRec base lo ixs).flatten = base.drop lo := by
  induction ixs generalizing lo with
  | nil => simp [sliceRec]
  | cons hi rest ih =>
    cases hchain with
    | cons hlohi htail =>
      simp only [sliceRec, List.flatten_cons]
      rw [ih hi htail]
      have hdd : base.drop hi = (base.drop lo).drop (hi - lo) := by
        rw [List.drop_drop]
        congr 1
        omega
      rw [hdd, List.take_append_drop]

theorem sliceRec_pieces (a : ℤ) (L : ℕ) (lo : ℕ) (ixs : List ℕ)
    (hlo : lo < L) (hchain : List.Chain (· < ·) lo ixs) (hbound : ∀ i ∈ ixs, i < L) :
    ∀ g ∈ sliceRec (intRange a L) lo ixs, ∃ c : ℤ, ∃ m : ℕ, g = intRange c m ∧ 0 < m := by
  induction ixs generalizing lo with
  | nil =>
    intro g hg
    simp only [sliceRec, List.mem_singleton] at hg
    subst hg
    exact ⟨a + lo, L - lo, intRange_drop a L lo, by omega⟩
  | cons hi rest ih =>
    intro g hg
    cases hchain with
    | cons hlohi htail =>
      simp only [sliceRec, List.mem_cons] at hg
      rcases hg with rfl | hg
      · refine ⟨a + lo, min (hi - lo) (L - lo), ?_, ?_⟩
        · rw [intRange_drop, intRange_take]
        · have := hbound hi (by simp)
          omega
      · exact ih hi (hbound hi (by simp)) htail (fun i hi' => hbound i (by simp [hi'])) g hg

theorem generate_bins_pieces (a : ℤ) (L n : ℕ) (hn : 1 ≤ n) :
    ∀ p ∈ _generate_bins (intRange a L) n,
      p.length = n ∧ p.flatten = intRange a L ∧
        (0 < L → ∀ g ∈ p, ∃ c : ℤ, ∃ m : ℕ, g = intRange c m ∧ 0 < m) := by
  intro p hp
  simp only [_generate_bins, List.mem_map] at hp
  rcases hp with ⟨ixs, hixs, rfl⟩
  have hsub : ixs.Sublist (List.range' 1 ((intRange a L).length - 1)) :=
    sublist_of_mem_combinations hixs
  have hlen : ixs.length = n - 1 := length_of_mem_combinations hixs
  have hmem : ∀ i ∈ ixs, 1 ≤ i ∧ i < L := by
    intro i hi
    have := hsub.subset hi
    rw [List.mem_range'_1, intRange_length] at this
    omega
  have hpair : ixs.Pairwise (· < ·) :=
    List.Pairwise.sublist hsub (List.pairwise_lt_range' 1 _)
  have hchain_lt : List.Chain (· < ·) 0 ixs := by
    rw [List.chain_iff_pairwise, List.pairwise_cons]
    exact ⟨fun i hi => by have := hmem i hi; omega, hpair⟩
  refine ⟨?_, ?_, ?_⟩
  · rw [pySlices_eq_sliceRec, sliceRec_length, hlen]
    omega
  · rw [pySlices_eq_sliceRec,
      sliceRec_flatten (intRange a L) 0 ixs (hchain_lt.imp (fun x y h => le_of_lt h)),
      List.drop_zero]
  · intro hL g hg
    rw [pySlices_eq_sliceRec] at hg
    exact sliceRec_pieces a L 0 ixs hL hchain_lt (fun i hi => (hmem i hi).2) g hg

/-! ## The per-cell characterisation of `_apply_binning` -/

theorem maskAssign_nil_right (a : List PyVal) (v : ℤ) (ii : ℕ) :
    _maskAssign a [] v ii = [] := by
  simp [_maskAssign]

theorem maskAssign_cons (x y : PyVal) (a b : List PyVal) (v : ℤ) (ii : ℕ) :
    _maskAssign (x :: a) (y :: b) v ii =
      (if x = PyVal.num (v : ℚ) then PyVal.num (ii : ℚ) else y) :: _maskAssign a b v ii := by
  simp [_maskAssign]

theorem innerFold_nil (bin : List ℤ) (a : List PyVal) (ii : ℕ) :
    bin.foldl (fun b v => _maskAssign a b v ii) [] = [] := by
  induction bin with
  | nil => rfl
  | cons v bin ih => rw [List.foldl_cons, maskAssign_nil_right]; exact ih

theorem innerFold_cons (bin : List ℤ) (x : PyVal) (a : List PyVal) (y : PyVal)
    (b : List PyVal) (ii : ℕ) :
    bin.foldl (fun b v => _maskAssign (x :: a) b v ii) (y :: b) =
      (bin.foldl (fun (y : PyVal) (v : ℤ) => if x = PyVal.num (v : ℚ) then PyVal.num (ii : ℚ) else y) y)
        :: bin.foldl (fun b v => _maskAssign a b v ii) b := by
  induction bin generalizing y b with
  | nil => rfl
  | cons v bin ih =>
    rw [List.foldl_cons, List.foldl_cons, List.foldl_cons, maskAssign_cons]
    exact ih _ _

theorem innerCellFold (bin : List ℤ) (x : PyVal) (y : PyVal) (ii : ℕ) :
    bin.foldl (fun (y : PyVal) (v : ℤ) => if x = PyVal.num (v : ℚ) then PyVal.num (ii : ℚ) else y) y =
      if bin.any (fun v => x = PyVal.num (v : ℚ)) then PyVal.num (ii : ℚ) else y := by
  induction bin generalizing y with
  | nil => simp
  | cons v bin ih =>
    rw [List.foldl_cons, ih]
    by_cases h1 : x = PyVal.num (v : ℚ) <;>
      by_cases h2 : bin.any (fun v => x = PyVal.num (v : ℚ)) = true <;>
      simp [h1, h2]

theorem outerFold_nil (l : List (ℕ × List ℤ)) (a : List PyVal) :
    l.foldl (fun b p => p.2.foldl (fun b v => _maskAssign a b v p.1) b) [] = [] := by
  induction l with
  | nil => rfl
  | cons p l ih => rw [List.foldl_cons, innerFold_nil]; exact ih

theorem outerFold_cons (l : List (ℕ × List ℤ)) (x : PyVal) (a : List PyVal)
    (y : PyVal) (b : List PyVal) :
    l.foldl (fun b p => p.2.foldl (fun b v => _maskAssign (x :: a) b v p.1) b) (y :: b) =
      (l.foldl (fun (y : PyVal) (p : ℕ × List ℤ) =>
          if p.2.any (fun v => x = PyVal.num (v : ℚ)) then PyVal.num (p.1 : ℚ) else y) y)
        :: l.foldl (fun b p => p.2.foldl (fun b v => _maskAssign a b v p.1) b) b := by
  induction l generalizing y b with
  | nil => rfl
  | cons p l ih =>
    rw [List.foldl_cons, List.foldl_cons, List.foldl_cons, innerFold_cons, innerCellFold]
    exact ih _ _

theorem apply_binning_eq_map_aux (l : List (ℕ × List ℤ)) (a : List PyVal) :
    l.foldl (fun b p => p.2.foldl (fun b v => _maskAssign a b v p.1) b)
        (a.map (fun _ => PyVal.nan)) =
      a.map (fun x => l.foldl
        (fun (y : PyVal) (p : ℕ × List ℤ) =>
          if p.2.any (fun v => x = PyVal.num (v : ℚ)) then PyVal.num (p.1 : ℚ) else y)
        PyVal.nan) := by
  induction a with
  | nil => exact outerFold_nil l []
  | cons x a ih =>
    rw [List.map_cons, List.map_cons, outerFold_cons]
    rw [ih]

theorem apply_binning_eq_map (a : List PyVal) (binning : List (List ℤ)) :
    _apply_binning a binning = a.map (applyCell binning) :=
  apply_binning_eq_map_aux binning.enum a

theorem applyCell_foldl_nan (l : List (ℕ × List ℤ)) (y : PyVal) :
    l.foldl (fun (y : PyVal) (p : ℕ × List ℤ) =>
        if p.2.any (fun v => PyVal.nan = PyVal.num (v : ℚ)) then PyVal.num (p.1 : ℚ) else y)
      y = y := by
  induction l generalizing y with
  | nil => rfl
  | cons p l ih =>
    rw [List.foldl_cons, if_neg (by simp)]
    exact ih y

theorem applyCell_nan (binning : List (List ℤ)) :
    applyCell binning PyVal.nan = PyVal.nan :=
  applyCell_foldl_nan binning.enum PyVal.nan

theorem mem_enumFrom_facts {α : Type} :
    ∀ (l : List α) (k : ℕ) (p : ℕ × α), p ∈ l.enumFrom k →
      k ≤ p.1 ∧ p.1 < k + l.length ∧ p.2 ∈ l := by
  intro l
  induction l with
  | nil => intro k p hp; simp [List.enumFrom] at hp
  | cons x xs ih =>
    intro k p hp
    simp only [List.enumFrom, List.mem_cons] at hp
    rcases hp with rfl | hp
    · simp
    · have := ih (k + 1) p hp
      refine ⟨by omega, by simp; omega, by simp [this.2.2]⟩

theorem enumFrom_mem_of_mem {α : Type} :
    ∀ (l : List α) (k : ℕ) (g : α), g ∈ l → ∃ i : ℕ, (i, g) ∈ l.enumFrom k := by
  intro l
  induction l with
  | nil => intro k g hg; simp at hg
  | cons x xs ih =>
    intro k g hg
    rcases List.mem_cons.mp hg with rfl | hg
    · exact ⟨k, by simp [List.enumFrom]⟩
    · rcases ih (k + 1) g hg with ⟨i, hi⟩
      exact ⟨i, by simp [List.enumFrom, hi]⟩

theorem applyCell_shape_aux (x : PyVal) (K : ℕ) :
    ∀ (l : List (ℕ × List ℤ)) (y : PyVal), (∀ p ∈ l, p.1 < K) →
      (y = PyVal.nan ∨ ∃ ii : ℕ, ii < K ∧ y = PyVal.num (ii : ℚ)) →
      (l.foldl (fun (y : PyVal) (p : ℕ × List ℤ) =>
          if p.2.any (fun v => x = PyVal.num (v : ℚ)) then PyVal.num (p.1 : ℚ) else y) y
        = PyVal.nan ∨
        ∃ ii : ℕ, ii < K ∧
          l.foldl (fun (y : PyVal) (p : ℕ × List ℤ) =>
            if p.2.any (fun v => x = PyVal.num (v : ℚ)) then PyVal.num (p.1 : ℚ) else y) y
          = PyVal.num (ii : ℚ)) := by
  intro l
  induction l with
  | nil => intro y _ hy; exact hy
  | cons p l ih =>
    intro y hl hy
    rw [List.foldl_cons]
    refine ih _ (fun q hq => hl q (by simp [hq])) ?_
    by_cases hc : p.2.any (fun v => x = PyVal.num (v : ℚ)) = true
    · rw [if_pos hc]
      exact Or.inr ⟨p.1, hl p (by simp), rfl⟩
    · rw [if_neg hc]
      exact hy

theorem applyCell_shape (binning : List (List ℤ)) (x : PyVal) :
    applyCell binning x = PyVal.nan ∨
      ∃ ii : ℕ, ii < binning.length ∧ applyCell binning x = PyVal.num (ii : ℚ) := by
  refine applyCell_shape_aux x binning.length binning.enum PyVal.nan ?_ (Or.inl rfl)
  intro p hp
  have := mem_enumFrom_facts binning 0 p hp
  omega

theorem applyCell_preserve_ne_nan (x : PyVal) :
    ∀ (l : List (ℕ × List ℤ)) (y : PyVal), y ≠ PyVal.nan →
      l.foldl (fun (y : PyVal) (p : ℕ × List ℤ) =>
        if p.2.any (fun v => x = PyVal.num (v : ℚ)) then PyVal.num (p.1 : ℚ) else y) y
      ≠ PyVal.nan := by
  intro l
  induction l with
  | nil => intro y hy; exact hy
  | cons p l ih =>
    intro y hy
    rw [List.foldl_cons]
    by_cases hc : p.2.any (fun v => x = PyVal.num (v : ℚ)) = true
    · rw [if_pos hc]; exact ih _ (by simp)
    · rw [if_neg hc]; exact ih _ hy

theorem applyCell_covered_aux (x : PyVal) :
    ∀ (l : List (ℕ × List ℤ)) (y : PyVal),
      (∃ p ∈ l, p.2.any (fun v => x = PyVal.num (v : ℚ)) = true) →
      l.foldl (fun (y : PyVal) (p : ℕ × List ℤ) =>
        if p.2.any (fun v => x = PyVal.num (v : ℚ)) then PyVal.num (p.1 : ℚ) else y) y
      ≠ PyVal.nan := by
  intro l
  induction l with
  | nil => intro y hy; simp at hy
  | cons p l ih =>
    intro y hy
    rw [List.foldl_cons]
    rcases hy with ⟨q, hq, hhit⟩
    rcases List.mem_cons.mp hq with rfl | hq
    · rw [if_pos hhit]
      exact applyCell_preserve_ne_nan x l _ (by simp)
    · exact ih _ ⟨q, hq, hhit⟩

theorem applyCell_covered (binning : List (List ℤ)) (v : ℤ)
    (hv : ∃ g ∈ binning, v ∈ g) :
    applyCell binning (PyVal.num (v : ℚ)) ≠ PyVal.nan := by
  rcases hv with ⟨g, hg, hvg⟩
  rcases enumFrom_mem_of_mem binning 0 g hg with ⟨i, hi⟩
  refine applyCell_covered_aux _ binning.enum PyVal.nan ⟨(i, g), hi, ?_⟩
  simp only [List.any_eq_true]
  exact ⟨v, hvg, by simp⟩

/-! ## The search fold -/

theorem foldl_best_mem (a : List PyVal) :
    ∀ (l : List (List (List ℤ))) (st : ℕ × Option (List (List ℤ))) (b : List (List ℤ)),
      (l.foldl (fun st binning =>
        match _evaluate_binning a binning with
        | none => st
        | some w => if w < st.1 then (w, some binning) else st) st).2 = some b →
      b ∈ l ∨ st.2 = some b := by
  intro l
  induction l with
  | nil => intro st b h; exact Or.inr h
  | cons c l ih =>
    intro st b h
    rw [List.foldl_cons] at h
    rcases ih _ b h with hmem | hst
    · exact Or.inl (by simp [hmem])
    · rcases heval : _evaluate_binning a c with _ | w
      · rw [heval] at hst
        dsimp only at hst
        exact Or.inr hst
      · rw [heval] at hst
        dsimp only at hst
        by_cases hlt : w < st.1
        · rw [if_pos hlt] at hst
          simp only [Option.some.injEq] at hst
          exact Or.inl (by simp [hst])
        · rw [if_neg hlt] at hst
          exact Or.inr hst

theorem bin_sequence_ok_elim (a : List PyVal) (nbins : ℤ) (out : List PyVal)
    (h : bin_sequence a nbins = .ok out) :
    ∃ amin amax : ℤ, (a.filterMap PyVal.toInt?).min? = some amin ∧
      (a.filterMap PyVal.toInt?).max? = some amax ∧ 0 < nbins ∧
      ∃ binning ∈ _generate_bins (intRange amin (amax + 1 - amin).toNat) nbins.toNat,
        out = _apply_binning a binning := by
  unfold bin_sequence at h
  by_cases hvalid : a.all (fun x => _isinteger x || x.isnan) = true
  · rw [if_pos hvalid] at h
    rcases hmin : (a.filterMap PyVal.toInt?).min? with _ | amin
    · rw [hmin] at h
      dsimp only at h
      exact absurd h (by simp)
    · rw [hmin] at h
      rcases hmax : (a.filterMap PyVal.toInt?).max? with _ | amax
      · rw [hmax] at h
        dsimp only at h
        exact absurd h (by simp)
      · rw [hmax] at h
        dsimp only at h
        by_cases hpos : nbins ≤ 0
        · rw [if_pos hpos] at h
          exact absurd h (by simp)
        · rw [if_neg hpos] at h
          rcases hbest : ((_generate_bins (intRange amin (amax + 1 - amin).toNat)
              nbins.toNat).foldl
            (fun st binning =>
              match _evaluate_binning a binning with
              | none => st
              | some w => if w < st.1 then (w, some binning) else st)
            (((a.filterMap PyVal.toInt?).length ^ (a.filterMap PyVal.toInt?).length, none) :
              ℕ × Option (List (List ℤ)))).2 with _ | binning
          · rw [hbest] at h
            exact absurd h (by simp)
          · rw [hbest] at h
            simp only [Except.ok.injEq] at h
            rcases foldl_best_mem a _ _ binning hbest with hmem | hnone
            · exact ⟨amin, amax, rfl, rfl, by omega, binning, hmem, h.symm⟩
            · exact absurd hnone (by simp)
  · rw [if_neg hvalid] at h
    exact absurd h (by simp)

/-- Claim C5: on every successful call, the binned sequence has the same
length as the input, every missing (NaN) input element is missing in the
output, and every non-missing output element is an integer group index in
`[0, nbins - 1]`. -/
theorem C5_output_shape (a : List PyVal) (nbins : ℤ) (out : List PyVal)
    (h : bin_sequence a nbins = .ok out) :
    out.length = a.length ∧
    (∀ j : ℕ, a[j]? = some PyVal.nan → out[j]? = some PyVal.nan) ∧
    (∀ x ∈ out, x = PyVal.nan ∨ ∃ ii : ℕ, (ii : ℤ) < nbins ∧ x = PyVal.num (ii : ℚ)) := by
  rcases bin_sequence_ok_elim a nbins out h with
    ⟨amin, amax, hmin, hmax, hpos, binning, hbin, rfl⟩
  have hmap := apply_binning_eq_map a binning
  have hlen : binning.length = nbins.toNat :=
    (generate_bins_pieces amin ((amax + 1 - amin).toNat) nbins.toNat (by omega) binning hbin).1
  refine ⟨by rw [hmap]; simp, ?_, ?_⟩
  · intro j hj
    rw [hmap, List.getElem?_map, hj]
    simp [applyCell_nan]
  · intro x hx
    rw [hmap] at hx
    rcases List.mem_map.mp hx with ⟨x0, hx0, rfl⟩
    rcases applyCell_shape binning x0 with hnan | ⟨ii, hii, heq⟩
    · exact Or.inl hnan
    · exact Or.inr ⟨ii, by omega, heq⟩

/-- Witness for C5 at a concrete successful call. -/
theorem C5_output_shape_witness :
    [PyVal.num 0, PyVal.num 1].length = [PyVal.num 0, PyVal.num 1].length ∧
    (∀ j : ℕ, [PyVal.num 0, PyVal.num 1][j]? = some PyVal.nan →
      [PyVal.num 0, PyVal.num 1][j]? = some PyVal.nan) ∧
    (∀ x ∈ [PyVal.num 0, PyVal.num 1], x = PyVal.nan ∨
      ∃ ii : ℕ, (ii : ℤ) < 2 ∧ x = PyVal.num (ii : ℚ)) :=
  C5_output_shape [PyVal.num 0, PyVal.num 1] 2 [PyVal.num 0, PyVal.num 1] (by rfl)

/-! ## min?/max? facts for integer lists -/

theorem intList_min?_le {l : List ℤ} {m : ℤ} (h : l.min? = some m) :
    ∀ b ∈ l, m ≤ b := by
  intro b hb
  exact (List.le_min?_iff (fun a b c => le_min_iff) h).1 le_rfl b hb

theorem intList_le_max? {l : List ℤ} {M : ℤ} (h : l.max? = some M) :
    ∀ b ∈ l, b ≤ M := by
  intro b hb
  exact (List.max?_le_iff (fun a b c => max_le_iff) h).1 le_rfl b hb

theorem intList_min?_le_max? {l : List ℤ} {m M : ℤ}
    (hm : l.min? = some m) (hM : l.max? = some M) : m ≤ M :=
  intList_min?_le hm M (List.max?_mem (fun a b => max_choice a b) hM)

/-! ## Claim C3 -/

/-- Claim C3: over a range of `L` consecutive integers (here
`intRange a L`) and any `1 ≤ nbins ≤ L`, the partition generator yields
exactly `C(L-1, nbins-1)` partitions, each consisting of exactly `nbins`
non-empty contiguous groups (runs of consecutive integers) whose
concatenation in order is the full range; the candidates are the
materialisations of the cut-position tuples, which are enumerated in
lexicographically increasing order. -/
theorem C3_generator (a : ℤ) (L nbins : ℕ) (h1 : 1 ≤ nbins) (h2 : nbins ≤ L) :
    (_generate_bins (intRange a L) nbins).length = (L - 1).choose (nbins - 1) ∧
    (∀ p ∈ _generate_bins (intRange a L) nbins,
      p.length = nbins ∧ p.flatten = intRange a L ∧
        ∀ g ∈ p, g ≠ [] ∧ ∃ c : ℤ, ∃ m : ℕ, g = intRange c m) ∧
    _generate_bins (intRange a L) nbins =
      (combinations (nbins - 1) (List.range' 1 (L - 1))).map (pySlices (intRange a L)) ∧
    (combinations (nbins - 1) (List.range' 1 (L - 1))).Pairwise (List.Lex (· < ·)) := by
  refine ⟨?_, ?_, ?_, ?_⟩
  · rw [_generate_bins, List.length_map, combinations_length, List.length_range',
      intRange_length]
  · intro p hp
    have hfacts := generate_bins_pieces a L nbins h1 p hp
    refine ⟨hfacts.1, hfacts.2.1, ?_⟩
    intro g hg
    rcases hfacts.2.2 (by omega) g hg with ⟨c, m, rfl, hm⟩
    refine ⟨?_, c, m, rfl⟩
    intro hnil
    have hlen := congrArg List.length hnil
    rw [intRange_length] at hlen
    simp at hlen
    omega
  · rw [_generate_bins, intRange_length]
  · exact combinations_pairwise_lex (List.pairwise_lt_range' 1 _)

/-- Witness for C3 at `a = 0`, `L = 3`, `nbins = 2`. -/
theorem C3_generator_witness :
    (_generate_bins (intRange 0 3) 2).length = (3 - 1).choose (2 - 1) ∧
    (∀ p ∈ _generate_bins (intRange 0 3) 2,
      p.length = 2 ∧ p.flatten = intRange 0 3 ∧
        ∀ g ∈ p, g ≠ [] ∧ ∃ c : ℤ, ∃ m : ℕ, g = intRange c m) ∧
    _generate_bins (intRange 0 3) 2 =
      (combinations (2 - 1) (List.range' 1 (3 - 1))).map (pySlices (intRange 0 3)) ∧
    (combinations (2 - 1) (List.range' 1 (3 - 1))).Pairwise (List.Lex (· < ·)) :=
  C3_generator 0 3 2 (by decide) (by decide)

/-! ## Claim C1 -/

/-- Claim C1: on input `[0,0,0,0,1,1,2,2,2,2]` with `nbins = 2` the
generator enumerates `{[0],[1,2]}` and then `{[0,1],[2]}`; their histograms
are `{4,6}` and `{6,4}`, whose Shannon entropies (both about 0.971) are
equal and positive, so the two candidates tie; the strict greater-than
comparison keeps the first-generated partition, and the returned binned
sequence is exactly `[0,0,0,0,1,1,1,1,1,1]`. -/
theorem C1_tie_keeps_first :
    _generate_bins (intRange 0 3) 2 = [[[0], [1, 2]], [[0, 1], [2]]] ∧
    bincount (labelsOf (_apply_binning
      [PyVal.num 0, PyVal.num 0, PyVal.num 0, PyVal.num 0, PyVal.num 1, PyVal.num 1,
        PyVal.num 2, PyVal.num 2, PyVal.num 2, PyVal.num 2] [[0], [1, 2]])) = [4, 6] ∧
    bincount (labelsOf (_apply_binning
      [PyVal.num 0, PyVal.num 0, PyVal.num 0, PyVal.num 0, PyVal.num 1, PyVal.num 1,
        PyVal.num 2, PyVal.num 2, PyVal.num 2, PyVal.num 2] [[0, 1], [2]])) = [6, 4] ∧
    shannonH [4, 6] = shannonH [6, 4] ∧ 0 < shannonH [4, 6] ∧
    _evaluate_binning
      [PyVal.num 0, PyVal.num 0, PyVal.num 0, PyVal.num 0, PyVal.num 1, PyVal.num 1,
        PyVal.num 2, PyVal.num 2, PyVal.num 2, PyVal.num 2] [[0], [1, 2]] =
      _evaluate_binning
        [PyVal.num 0, PyVal.num 0, PyVal.num 0, PyVal.num 0, PyVal.num 1, PyVal.num 1,
          PyVal.num 2, PyVal.num 2, PyVal.num 2, PyVal.num 2] [[0, 1], [2]] ∧
    bin_sequence
      [PyVal.num 0, PyVal.num 0, PyVal.num 0, PyVal.num 0, PyVal.num 1, PyVal.num 1,
        PyVal.num 2, PyVal.num 2, PyVal.num 2, PyVal.num 2] 2 =
      .ok [PyVal.num 0, PyVal.num 0, PyVal.num 0, PyVal.num 0, PyVal.num 1, PyVal.num 1,
        PyVal.num 1, PyVal.num 1, PyVal.num 1, PyVal.num 1] := by
  refine ⟨by rfl, by rfl, by rfl, ?_, ?_, by rfl, by rfl⟩
  · norm_num [shannonH]
    ring
  · have h4 : ((4 : ℝ) / 10) * Real.logb 2 (4 / 10) < 0 :=
      mul_neg_of_pos_of_neg (by norm_num)
        (Real.logb_neg (by norm_num) (by norm_num) (by norm_num))
    have h6 : ((6 : ℝ) / 10) * Real.logb 2 (6 / 10) < 0 :=
      mul_neg_of_pos_of_neg (by norm_num)
        (Real.logb_neg (by norm_num) (by norm_num) (by norm_num))
    norm_num [shannonH]
    nlinarith [h4, h6]

/-! ## Claim C2: `nbins = 1` always fails -/

theorem pySlices_nil (base : List ℤ) : pySlices base [] = [base] := by
  rw [pySlices_eq_sliceRec]
  simp [sliceRec]

theorem generate_bins_one (seq : List ℤ) : _generate_bins seq 1 = [[seq]] := by
  simp [_generate_bins, combinations, pySlices_nil]

theorem applyCell_single (seq : List ℤ) (x : PyVal) :
    applyCell [seq] x =
      if seq.any (fun v => x = PyVal.num (v : ℚ)) then PyVal.num ((0 : ℕ) : ℚ)
      else PyVal.nan := rfl

theorem foldl_max_replicate_zero (n : ℕ) :
    (List.replicate n (0 : ℕ)).foldl max 0 = 0 := by
  induction n with
  | zero => rfl
  | succ n ih => rw [List.replicate_succ, List.foldl_cons]; exact ih

theorem bincount_replicate_zero (n : ℕ) (hn : 0 < n) :
    bincount (List.replicate n 0) = [n] := by
  unfold bincount
  rw [if_neg (by simp [List.isEmpty_iff]; omega)]
  rw [foldl_max_replicate_zero]
  have : List.range (0 + 1) = [0] := rfl
  rw [this]
  simp [List.count_replicate_self]

/-- The single candidate that `_generate_bins(range, 1)` yields is scored
with entropy exactly 0 (all labels are 0), encoded as the weight `T ^ T`. -/
theorem evaluate_single_bin (a : List PyVal)
    (hvalid : a.all (fun x => _isinteger x || x.isnan) = true)
    (hne : a.filterMap PyVal.toInt? ≠ [])
    (amin amax : ℤ)
    (hmin : (a.filterMap PyVal.toInt?).min? = some amin)
    (hmax : (a.filterMap PyVal.toInt?).max? = some amax) :
    _evaluate_binning a [intRange amin (amax + 1 - amin).toNat] =
      some ((a.filterMap PyVal.toInt?).length ^ (a.filterMap PyVal.toInt?).length) := by
  have hle : amin ≤ amax := intList_min?_le_max? hmin hmax
  have hlabels : labelsOf (_apply_binning a [intRange amin (amax + 1 - amin).toNat]) =
      List.replicate (a.filterMap PyVal.toInt?).length 0 := by
    rw [apply_binning_eq_map, labelsOf, List.filterMap_map]
    have hcongr : ∀ x ∈ a,
        ((fun x => match x with
          | PyVal.nan => none
          | PyVal.num q => some q.num.toNat) ∘
            applyCell [intRange amin (amax + 1 - amin).toNat]) x =
          (PyVal.toInt? x).map (fun _ => (0 : ℕ)) := by
      intro x hx
      cases x with
      | nan =>
        simp only [Function.comp_apply, applyCell_nan, PyVal.toInt?]
        rfl
      | num q =>
        have hint : _isinteger (PyVal.num q) = true := by
          have := List.all_eq_true.mp hvalid _ hx
          simp only [Bool.or_eq_true] at this
          rcases this with h | h
          · exact h
          · exact absurd h (by simp [PyVal.isnan])
        have hden : q.den = 1 := by
          simpa [_isinteger] using hint
        have hqmem : q.num ∈ a.filterMap PyVal.toInt? :=
          List.mem_filterMap.mpr ⟨PyVal.num q, hx, rfl⟩
        have h1 : amin ≤ q.num := intList_min?_le hmin _ hqmem
        have h2 : q.num ≤ amax := intList_le_max? hmax _ hqmem
        have hmem : q.num ∈ intRange amin (amax + 1 - amin).toNat := by
          rw [mem_intRange]
          omega
        have hhit : (intRange amin (amax + 1 - amin).toNat).any
            (fun v => PyVal.num q = PyVal.num (v : ℚ)) = true := by
          simp only [List.any_eq_true]
          refine ⟨q.num, hmem, ?_⟩
          simp [Rat.coe_int_num_of_den_eq_one hden]
        simp only [Function.comp_apply, applyCell_single, if_pos hhit, PyVal.toInt?]
        rfl
    rw [List.filterMap_congr hcongr]
    rw [← List.map_filterMap, List.map_const']
  have hTpos : 0 < (a.filterMap PyVal.toInt?).length := List.length_pos.mpr hne
  unfold _evaluate_binning _get_h
  rw [hlabels, bincount_replicate_zero _ hTpos]
  rw [if_neg (by simp; omega)]
  simp [entropyWeight]

/-- Claim C2 asserts that for every valid integer input with at least one
non-missing element, `bin_sequence(a, 1)` succeeds and maps every
non-missing value to 0.  The code instead always fails there: the single
candidate (the whole range in one bin) is scored `h = 0`, the strict
comparison against the initial `best_h = 0` never fires, `best_binning` is
never assigned, and the final `_apply_binning(a, best_binning)` raises
`UnboundLocalError` (modelled as `BinError.noBestBinning`). -/
theorem C2_nbins_one_always_fails (a : List PyVal)
    (hvalid : a.all (fun x => _isinteger x || x.isnan) = true)
    (hne : a.filterMap PyVal.toInt? ≠ []) :
    bin_sequence a 1 = .error .noBestBinning := by
  obtain ⟨amin, hmin⟩ : ∃ m, (a.filterMap PyVal.toInt?).min? = some m := by
    rcases h : (a.filterMap PyVal.toInt?).min? with _ | m
    · exact absurd (List.min?_eq_none_iff.mp h) hne
    · exact ⟨m, rfl⟩
  obtain ⟨amax, hmax⟩ : ∃ m, (a.filterMap PyVal.toInt?).max? = some m := by
    rcases h : (a.filterMap PyVal.toInt?).max? with _ | m
    · exact absurd (List.max?_eq_none_iff.mp h) hne
    · exact ⟨m, rfl⟩
  unfold bin_sequence
  rw [if_pos hvalid, hmin, hmax]
  dsimp only
  rw [if_neg (by decide : ¬ (1 : ℤ) ≤ 0)]
  rw [show ((1 : ℤ).toNat) = 1 from rfl, generate_bins_one]
  rw [List.foldl_cons, List.foldl_nil]
  rw [evaluate_single_bin a hvalid hne amin amax hmin hmax]
  dsimp only
  rw [if_neg (lt_irrefl _)]

/-- Witness for C2's theorem at the concrete failing input `[0, 1]`. -/
theorem C2_nbins_one_always_fails_witness :
    bin_sequence [PyVal.num 0, PyVal.num 1] 1 = .error .noBestBinning :=
  C2_nbins_one_always_fails [PyVal.num 0, PyVal.num 1] (by decide) (by decide)

/-! ## Claim C4 -/

/-- Claim C4 asserts that the evaluator returns the Shannon entropy of the
group-occupancy distribution with zero-occupancy groups contributing 0
(never NaN).  The code disagrees on reachable candidates with an interior
empty group: on `[1,1,4,4]`, the partition `{[1],[2,3],[4]}` is a generator
candidate for `nbins = 3` over the range `[1,4]` and has histogram
`[2,0,2]`; because `np.ma.filled` is a no-op on a plain ndarray, the
`0 * log2(0)` term makes `_evaluate_binning` return NaN (modelled `none`),
whereas the claimed convention gives the entropy 1. -/
theorem C4_interior_zero_gives_nan :
    [[1], [2, 3], [4]] ∈ _generate_bins (intRange 1 4) 3 ∧
    bincount (labelsOf (_apply_binning
      [PyVal.num 1, PyVal.num 1, PyVal.num 4, PyVal.num 4] [[1], [2, 3], [4]])) = [2, 0, 2] ∧
    _evaluate_binning [PyVal.num 1, PyVal.num 1, PyVal.num 4, PyVal.num 4]
      [[1], [2, 3], [4]] = none ∧
    shannonH [2, 0, 2] = 1 := by
  refine ⟨by decide, by rfl, by rfl, ?_⟩
  have hhalf : Real.logb 2 ((1 : ℝ) / 2) = -1 := by
    rw [show ((1 : ℝ) / 2) = 2⁻¹ by norm_num, Real.logb_inv,
      Real.logb_self_eq_one (by norm_num)]
  norm_num [shannonH, hhalf]

/-! ## Claim C9 -/

/-- Claim C9 asserts that re-binning an already-binned sequence (labels
`0..nbins-1`, uniformly occupied) with the same `nbins` is the identity for
every `nbins ≥ 1`.  At `nbins = 1` the code instead crashes with
`UnboundLocalError` (the lone candidate scores `h = 0`, which never exceeds
the initial `best_h = 0`), so the already-binned sequence `[0]` is not
returned unchanged. -/
theorem C9_rebin_identity_fails_at_one :
    bin_sequence [PyVal.num 0] 1 = .error .noBestBinning := by rfl

/-! ## Claim C7 -/

/-- Claim C7: if any non-missing element is non-integral, the integrality
assert fails immediately — for every `nbins`, before any range computation,
enumeration or scoring, the call returns the assertion failure (the spec's
`InvalidInputError`). -/
theorem C7_invalid_input (a : List PyVal)
    (hx : ∃ x ∈ a, x.isnan = false ∧ _isinteger x = false) :
    ∀ nbins : ℤ, bin_sequence a nbins = .error .invalidInput := by
  intro nbins
  unfold bin_sequence
  rw [if_neg ?_]
  rcases hx with ⟨x, hxa, hnan, hint⟩
  intro hall
  have := List.all_eq_true.mp hall x hxa
  rw [hint, hnan] at this
  simp at this

/-- Witness for C7 at `[1.5, 2.0]` with `nbins = 2`. -/
theorem C7_invalid_input_witness :
    bin_sequence [PyVal.num (3 / 2), PyVal.num 2] 2 = .error .invalidInput :=
  C7_invalid_input [PyVal.num (3 / 2), PyVal.num 2]
    ⟨PyVal.num (3 / 2), by simp, by rfl, by simp only [_isinteger]; norm_num⟩ 2

/-! ## Claim C8 -/

/-- Claim C8: an input consisting only of missing (NaN) elements passes the
integrality assert but has no non-missing values, so the range computation
`np.int(np.nanmin(a))` fails for every `nbins` (the spec's
`EmptyInputError`) and no result is returned. -/
theorem C8_all_missing (a : List PyVal) (hall : ∀ x ∈ a, x = PyVal.nan) :
    ∀ nbins : ℤ, bin_sequence a nbins = .error .emptyInput := by
  intro nbins
  unfold bin_sequence
  rw [if_pos ?_]
  · have hfm : a.filterMap PyVal.toInt? = [] := by
      rw [List.filterMap_eq_nil_iff]
      intro x hx
      rw [hall x hx]
      rfl
    rw [hfm]
    rfl
  · rw [List.all_eq_true]
    intro x hx
    rw [hall x hx]
    rfl

/-- Witness for C8 at `[NaN]` with `nbins = 3`. -/
theorem C8_all_missing_witness :
    bin_sequence [PyVal.nan] 3 = .error .emptyInput :=
  C8_all_missing [PyVal.nan] (by decide) 3

/-! ## Claim C6 -/

/-- Counterexample to C6 as stated: the infeasible call
`bin_sequence([1,1,2,2], 5)` does fail, but not with a dedicated,
descriptive infeasible-bin-count error: it fails with the generic
unbound-local failure (`best_binning` never assigned) — exactly the same
error that the perfectly feasible call `bin_sequence([0,0], 1)` also
produces, so the raised error is not specific to bin-count infeasibility. -/
theorem C6_counterexample :
    bin_sequence [PyVal.num 1, PyVal.num 1, PyVal.num 2, PyVal.num 2] 5 =
      .error .noBestBinning ∧
    bin_sequence [PyVal.num 0, PyVal.num 0] 1 = .error .noBestBinning :=
  ⟨by rfl, by rfl⟩

/-- C6 amended: whenever `nbins < 1` or `nbins` exceeds the width of the
value range, `bin_sequence` raises an error and never silently returns a
degenerate binning — a `ValueError` from `itertools.combinations` for
`nbins < 1`, and the generic `UnboundLocalError` (not a dedicated
infeasibility error) when the generator yields no candidates. -/
theorem C6_infeasible_errors (a : List PyVal) (nbins : ℤ) (amin amax : ℤ)
    (hvalid : a.all (fun x => _isinteger x || x.isnan) = true)
    (hmin : (a.filterMap PyVal.toInt?).min? = some amin)
    (hmax : (a.filterMap PyVal.toInt?).max? = some amax)
    (hbad : nbins < 1 ∨ amax + 1 - amin < nbins) :
    bin_sequence a nbins = .error .negativeBinCount ∨
      bin_sequence a nbins = .error .noBestBinning := by
  have hminmax : amin ≤ amax := intList_min?_le_max? hmin hmax
  unfold bin_sequence
  rw [if_pos hvalid, hmin, hmax]
  dsimp only
  by_cases hle : nbins ≤ 0
  · rw [if_pos hle]
    exact Or.inl rfl
  · rw [if_neg hle]
    right
    have hnil : _generate_bins (intRange amin (amax + 1 - amin).toNat) nbins.toNat = [] := by
      unfold _generate_bins
      rw [combinations_eq_nil (by
        rw [List.length_range', intRange_length]
        rcases hbad with h | h <;> omega), List.map_nil]
    rw [hnil, List.foldl_nil]

/-- Witness for the amended C6 at `bin_sequence([1,1,2,2], 5)`. -/
theorem C6_infeasible_errors_witness :
    bin_sequence [PyVal.num 1, PyVal.num 1, PyVal.num 2, PyVal.num 2] 5 =
      .error .negativeBinCount ∨
    bin_sequence [PyVal.num 1, PyVal.num 1, PyVal.num 2, PyVal.num 2] 5 =
      .error .noBestBinning :=
  C6_infeasible_errors [PyVal.num 1, PyVal.num 1, PyVal.num 2, PyVal.num 2] 5 1 2
    (by decide) (by decide) (by decide) (Or.inr (by decide))

/-! ## Claim C10: the input array is never mutated -/

theorem inner_fold_set_preserves (aRef bRef : ℕ) (ii : ℕ) :
    ∀ (bin : List ℤ) (h : Heap) (i : ℕ), i ≠ bRef →
      (bin.foldl (fun (h : Heap) v =>
        h.set bRef (_maskAssign (h.getD aRef []) (h.getD bRef []) v ii)) h)[i]? = h[i]? := by
  intro bin
  induction bin with
  | nil => intro h i hi; rfl
  | cons v bin ih =>
    intro h i hi
    rw [List.foldl_cons, ih _ i hi, List.getElem?_set_ne (fun heq => hi heq.symm)]

theorem outer_fold_set_preserves (aRef bRef : ℕ) :
    ∀ (l : List (ℕ × List ℤ)) (h : Heap) (i : ℕ), i ≠ bRef →
      (l.foldl (fun (h : Heap) p => p.2.foldl (fun (h : Heap) v =>
        h.set bRef (_maskAssign (h.getD aRef []) (h.getD bRef []) v p.1)) h) h)[i]? = h[i]? := by
  intro l
  induction l with
  | nil => intro h i hi; rfl
  | cons p l ih =>
    intro h i hi
    rw [List.foldl_cons, ih _ i hi, inner_fold_set_preserves aRef bRef p.1 p.2 h i hi]

theorem inner_fold_set_length (aRef bRef : ℕ) (ii : ℕ) :
    ∀ (bin : List ℤ) (h : Heap),
      (bin.foldl (fun (h : Heap) v =>
        h.set bRef (_maskAssign (h.getD aRef []) (h.getD bRef []) v ii)) h).length =
        h.length := by
  intro bin
  induction bin with
  | nil => intro h; rfl
  | cons v bin ih =>
    intro h
    rw [List.foldl_cons, ih, List.length_set]

theorem outer_fold_set_length (aRef bRef : ℕ) :
    ∀ (l : List (ℕ × List ℤ)) (h : Heap),
      (l.foldl (fun (h : Heap) p => p.2.foldl (fun (h : Heap) v =>
        h.set bRef (_maskAssign (h.getD aRef []) (h.getD bRef []) v p.1)) h) h).length =
        h.length := by
  intro l
  induction l with
  | nil => intro h; rfl
  | cons p l ih =>
    intro h
    rw [List.foldl_cons, ih, inner_fold_set_length]

theorem apply_binning_st_preserves (heap : Heap) (aRef : ℕ) (binning : List (List ℤ))
    (i : ℕ) (hi : i < heap.length) :
    ((_apply_binning_st heap aRef binning).1)[i]? = heap[i]? := by
  unfold _apply_binning_st
  dsimp only
  have hne : i ≠ heap.length := by omega
  have hlen : (binning.enum.foldl (fun (h : Heap) p => p.2.foldl (fun (h : Heap) v =>
      h.set heap.length (_maskAssign (h.getD aRef []) (h.getD heap.length []) v p.1)) h)
      (heap ++ [(heap.getD aRef []).map fun _ => PyVal.nan])).length =
      heap.length + 1 := by
    rw [outer_fold_set_length]
    simp
  rw [List.getElem?_append_left (by omega),
    outer_fold_set_preserves aRef heap.length binning.enum _ i hne,
    List.getElem?_append_left (by omega)]

/-- Claim C10: neither `bin_sequence` nor its helpers mutate the caller's
input array: every write of `_apply_binning` targets the freshly allocated
output cell, so after any call — successful or failing — every
pre-existing heap cell (in particular the input array at `aRef`) holds
exactly the values it held before. -/
theorem C10_input_not_mutated (heap : Heap) (aRef : ℕ) (nbins : ℤ) (i : ℕ)
    (hi : i < heap.length) :
    ((bin_sequence_st heap aRef nbins).1)[i]? = heap[i]? := by
  unfold bin_sequence_st
  by_cases hvalid : (heap.getD aRef []).all (fun x => _isinteger x || x.isnan) = true
  · rw [if_pos hvalid]
    rcases hmin : ((heap.getD aRef []).filterMap PyVal.toInt?).min? with _ | amin
    · rfl
    · rcases hmax : ((heap.getD aRef []).filterMap PyVal.toInt?).max? with _ | amax
      · rfl
      · dsimp only
        by_cases hpos : nbins ≤ 0
        · rw [if_pos hpos]
        · rw [if_neg hpos]
          split
          next binning heq =>
            dsimp only
            exact apply_binning_st_preserves heap aRef binning i hi
          next heq => rfl
  · rw [if_neg hvalid]

/-- Witness for C10 on a concrete one-cell heap. -/
theorem C10_input_not_mutated_witness :
    ((bin_sequence_st [[PyVal.num 0, PyVal.num 1]] 0 2).1)[0]? =
      [[PyVal.num 0, PyVal.num 1]][0]? :=
  C10_input_not_mutated [[PyVal.num 0, PyVal.num 1]] 0 2 0 (by decide)

/-! ## Faithfulness of the entropy encoding

These theorems justify modelling the float entropy `h` of `_get_h` by the
integer `entropyWeight counts`: over count vectors with positive entries
and a common total, the real entropy `shannonH` is a strictly decreasing
function of the weight, and positivity of the entropy (the comparison
against the initial `best_h = 0`) is exactly `weight < T ^ T`. -/

theorem entropyWeight_pos (counts : List ℕ) (hpos : ∀ c ∈ counts, 0 < c) :
    0 < entropyWeight counts := by
  unfold entropyWeight
  apply List.prod_pos
  intro x hx
  rcases List.mem_map.mp hx with ⟨c, hc, rfl⟩
  exact Nat.pos_pow_of_pos c (hpos c hc)

theorem logb_entropyWeight (counts : List ℕ) (hpos : ∀ c ∈ counts, 0 < c) :
    Real.logb 2 ((entropyWeight counts : ℕ) : ℝ) =
      (List.map (fun c : ℕ => (c : ℝ) * Real.logb 2 (c : ℝ)) counts).sum := by
  unfold entropyWeight
  induction counts with
  | nil => simp
  | cons c cs ih =>
    have hc : 0 < c := hpos c (by simp)
    have hcs : ∀ x ∈ cs, 0 < x := fun x hx => hpos x (by simp [hx])
    have hprodR : (0 : ℝ) < ((cs.map (fun c => c ^ c)).prod : ℕ) := by
      exact_mod_cast entropyWeight_pos cs hcs
    rw [List.map_cons, List.prod_cons, List.map_cons, List.sum_cons, ← ih hcs]
    push_cast
    push_cast at hprodR
    rw [Real.logb_mul (by positivity) (ne_of_gt hprodR), Real.logb_pow]

theorem shannonH_sum_term (T : ℝ) (hT : T ≠ 0) (counts : List ℕ)
    (hpos : ∀ c ∈ counts, 0 < c) :
    (List.map (fun c : ℕ => ((c : ℝ) / T) * Real.logb 2 ((c : ℝ) / T)) counts).sum =
      (List.map (fun c : ℕ => (c : ℝ) * Real.logb 2 (c : ℝ)) counts).sum / T -
        Real.logb 2 T * (counts.sum : ℝ) / T := by
  induction counts with
  | nil => simp
  | cons c cs ih =>
    have hc : (0 : ℝ) < (c : ℝ) := by exact_mod_cast hpos c (by simp)
    have hcs : ∀ x ∈ cs, 0 < x := fun x hx => hpos x (by simp [hx])
    rw [List.map_cons, List.sum_cons, List.map_cons, List.sum_cons, ih hcs,
      Real.logb_div (ne_of_gt hc) hT]
    push_cast
    simp only [List.map_cons, List.sum_cons]
    ring

theorem shannonH_eq_of_pos (counts : List ℕ) (hpos : ∀ c ∈ counts, 0 < c)
    (hne : counts ≠ []) :
    shannonH counts = Real.logb 2 (counts.sum : ℝ) -
      Real.logb 2 ((entropyWeight counts : ℕ) : ℝ) / (counts.sum : ℝ) := by
  have hsum : 0 < counts.sum := by
    rcases counts with _ | ⟨c, cs⟩
    · exact absurd rfl hne
    · have := hpos c (by simp)
      simp only [List.sum_cons]
      omega
  have hT : (0 : ℝ) < (counts.sum : ℝ) := by exact_mod_cast hsum
  unfold shannonH
  rw [shannonH_sum_term _ (ne_of_gt hT) counts hpos, logb_entropyWeight counts hpos,
    mul_div_assoc, div_self (ne_of_gt hT), mul_one]
  ring

theorem entropyWeight_lt_iff_shannonH_gt (c₁ c₂ : List ℕ)
    (h1 : ∀ c ∈ c₁, 0 < c) (h2 : ∀ c ∈ c₂, 0 < c)
    (hn1 : c₁ ≠ []) (hn2 : c₂ ≠ []) (hsum : c₁.sum = c₂.sum) :
    (entropyWeight c₁ < entropyWeight c₂ ↔ shannonH c₂ < shannonH c₁) := by
  have hsum2 : 0 < c₂.sum := by
    rcases c₂ with _ | ⟨c, cs⟩
    · exact absurd rfl hn2
    · have := h2 c (by simp)
      simp only [List.sum_cons]
      omega
  have hT : (0 : ℝ) < (c₂.sum : ℝ) := by exact_mod_cast hsum2
  have hw1 : (0 : ℝ) < ((entropyWeight c₁ : ℕ) : ℝ) := by
    exact_mod_cast entropyWeight_pos c₁ h1
  have hw2 : (0 : ℝ) < ((entropyWeight c₂ : ℕ) : ℝ) := by
    exact_mod_cast entropyWeight_pos c₂ h2
  rw [shannonH_eq_of_pos c₁ h1 hn1, shannonH_eq_of_pos c₂ h2 hn2, hsum,
    sub_lt_sub_iff_left, div_lt_div_iff_of_pos_right hT,
    Real.logb_lt_logb_iff (by norm_num) hw1 hw2]
  exact ⟨fun h => by exact_mod_cast h, fun h => by exact_mod_cast h⟩

theorem shannonH_pos_iff_weight_lt (counts : List ℕ)
    (hpos : ∀ c ∈ counts, 0 < c) (hne : counts ≠ []) :
    (0 < shannonH counts ↔ entropyWeight counts < counts.sum ^ counts.sum) := by
  have hsum : 0 < counts.sum := by
    rcases counts with _ | ⟨c, cs⟩
    · exact absurd rfl hne
    · have := hpos c (by simp)
      simp only [List.sum_cons]
      omega
  have hT : (0 : ℝ) < (counts.sum : ℝ) := by exact_mod_cast hsum
  have hw : (0 : ℝ) < ((entropyWeight counts : ℕ) : ℝ) := by
    exact_mod_cast entropyWeight_pos counts hpos
  have hTT : (0 : ℝ) < ((counts.sum : ℝ) ^ counts.sum) := by positivity
  rw [shannonH_eq_of_pos counts hpos hne, sub_pos, div_lt_iff₀ hT,
    show Real.logb 2 (counts.sum : ℝ) * (counts.sum : ℝ) =
      Real.logb 2 ((counts.sum : ℝ) ^ counts.sum) by rw [Real.logb_pow]; ring,
    Real.logb_lt_logb_iff (by norm_num) hw hTT]
  constructor
  · intro h
    exact_mod_cast h
  · intro h
    exact_mod_cast h
